import Mathlib

/-!
Verification of the concurrency-primitive toolkit
(atomic counter, CAS retry loops, lock-free stack, exponential backoff).

Modelling conventions, used throughout:

* Machine integers (`int`) are modelled as `Int`.  Every counter in the
  programs stays far below 2^31, so wraparound never occurs and plain
  integer arithmetic is the faithful semantics.

* Every shared mutable location in the sources is a single word accessed
  only through atomic operations (`load`, `store`, `fetch_add`,
  `compare_exchange_weak`).  A concurrent execution is therefore a
  sequence of atomic events on that location (a linearization); the
  effect of each complete operation is an atomic transition on the
  abstract value of the location.

* A CAS retry loop run by one thread against interference from the
  others is modelled with an explicit *schedule*: the list of
  `(currentValue, spurious)` pairs giving, for each CAS attempt the
  thread makes, the value the shared location holds at that instant and
  whether the weak CAS fails spuriously.  `compare_exchange_weak`
  succeeds iff the location equals the expected value and the attempt
  is not spurious; on failure it stores the location's current value
  into the expected-value variable (exactly the C++ semantics the loops
  rely on).

* Heap pointers in the lock-free stack are modelled functionally: the
  head pointer is identified with the list of payloads of the chain it
  points to (`nullptr` = `[]`).  This is the standard functional
  abstraction of the pointer structure; address-level phenomena (ABA,
  reclamation races), which the source itself documents as unhandled
  hazards, are outside this abstraction.
-/

/-- Weak compare-and-swap test, from `std::atomic::compare_exchange_weak`:
the attempt succeeds iff the location's current value equals the expected
value and the attempt does not fail spuriously. -/
def casTry {α : Type} [DecidableEq α] (current expected : α) (spurious : Bool) : Bool :=
  !spurious && decide (current = expected)

theorem casTry_eq_true {α : Type} [DecidableEq α] (c e : α) (sp : Bool) :
    casTry c e sp = true ↔ sp = false ∧ c = e := by
  cases sp <;> simp [casTry]

/-- One CAS attempt as the retrying thread experiences it: the value it
expected, the value it proposed, the value the location actually held at
the attempt, and whether the CAS succeeded. -/
structure Attempt (α : Type) where
  expected : α
  proposed : α
  current : α
  success : Bool
  deriving Repr, DecidableEq

/-! ## Lock-free stack (src/06_lockfree_stack.cpp) — sequential semantics

With no concurrent interference every CAS succeeds on its first attempt,
so `push` and `pop` reduce to single atomic transitions on the head
chain.  `pop` takes the caller's out-parameter `value` and returns the
`bool` result, the new chain, and the out-parameter's value after the
call. -/

namespace LockFreeStack

/-- `LockFreeStack::push(value)` with no interference: the new node is
linked to the observed head and the single CAS installs it. -/
def push (value : Int) (stack : List Int) : List Int :=
  value :: stack

/-- `LockFreeStack::pop(int& value)` with no interference: on `nullptr`
head the while-loop body never runs and `false` is returned with `value`
untouched; otherwise the single CAS swings head to `old_head->next`, the
payload is stored into `value`, and `true` is returned. -/
def pop (stack : List Int) (value : Int) : Bool × List Int × Int :=
  match stack with
  | [] => (false, [], value)
  | v :: rest => (true, rest, v)

end LockFreeStack

/-- Pushing a list of values in order, each by `LockFreeStack.push`
(the `worker_push` loop shape). -/
def pushAll (vs : List Int) (stack : List Int) : List Int :=
  vs.foldl (fun s v => LockFreeStack.push v s) stack

/-- Popping repeatedly until the stack is empty (the teardown /
single-thread drain loop), listing the popped values in pop order.  For
a nonempty chain `LockFreeStack.pop` returns the tail as the new chain,
so the recursion follows the chain structurally. -/
def popAll : List Int → List Int
  | [] => []
  | hd :: tl => (LockFreeStack.pop (hd :: tl) 0).2.2 :: popAll tl

/-! ## Linearized concurrent history of the stack

Each completed `push` contributes one atomic head transition; each
completed `pop` either removes the head node (payload goes to the
popping thread) or observes the empty sentinel and changes nothing.  A
concurrent history is an arbitrary sequence of these events. -/

/-- One linearized stack operation. -/
inductive StackOp : Type
  | push (v : Int)
  | pop
  deriving Repr, DecidableEq

/-- Abstract state of a stack history: the current head chain, the
multiset-history of values returned by successful pops, and the
multiset-history of values passed to push. -/
structure StackState where
  stack : List Int
  popped : List Int
  pushed : List Int
  deriving Repr, DecidableEq

/-- The empty stack, before any operation. -/
def StackState.init : StackState := ⟨[], [], []⟩

/-- Effect of one linearized operation on the history state. -/
def StackState.applyOp (s : StackState) : StackOp → StackState
  | .push v => { s with stack := v :: s.stack, pushed := v :: s.pushed }
  | .pop =>
    match s.stack with
    | [] => s
    | v :: rest => { s with stack := rest, popped := v :: s.popped }

/-- Run a whole history of operations from the empty stack. -/
def runOps (ops : List StackOp) : StackState :=
  ops.foldl StackState.applyOp StackState.init

/-- Conservation invariant of a history state: values popped plus values
still in the chain are exactly the values pushed, as multisets. -/
def StackState.conserved (s : StackState) : Prop :=
  (s.popped : Multiset Int) + (s.stack : Multiset Int) = (s.pushed : Multiset Int)

theorem StackState.conserved_applyOp (s : StackState) (op : StackOp)
    (h : s.conserved) : (s.applyOp op).conserved := by
  cases op with
  | push v =>
    simp only [StackState.applyOp, StackState.conserved] at *
    simp only [← Multiset.cons_coe]
    rw [Multiset.add_cons, h]
  | pop =>
    cases hs : s.stack with
    | nil => simpa [StackState.applyOp, hs] using h
    | cons v rest =>
      simp only [StackState.applyOp, hs, StackState.conserved] at *
      simp only [← Multiset.cons_coe] at *
      rw [Multiset.cons_add, ← Multiset.add_cons, h]

theorem conserved_foldl (ops : List StackOp) (s : StackState)
    (h : s.conserved) : (ops.foldl StackState.applyOp s).conserved := by
  induction ops generalizing s with
  | nil => exact h
  | cons op rest ih => exact ih _ (s.conserved_applyOp op h)

/-- C1: For every sequence of push and pop operations on a LockFreeStack,
the multiset of values returned by successful pops plus the multiset of
values still reachable from the head pointer equals the multiset of
values passed to push: no value is lost and no value is duplicated. -/
theorem stack_conservation (ops : List StackOp) :
    ((runOps ops).popped : Multiset Int) + ((runOps ops).stack : Multiset Int)
      = ((runOps ops).pushed : Multiset Int) := by
  have h := conserved_foldl ops StackState.init (by rfl)
  exact h

theorem popAll_eq (s : List Int) : popAll s = s := by
  induction s with
  | nil => rfl
  | cons hd tl ih => simp [popAll, LockFreeStack.pop, ih]

theorem pushAll_eq (vs s : List Int) : pushAll vs s = vs.reverse ++ s := by
  induction vs generalizing s with
  | nil => simp [pushAll]
  | cons v vs ih =>
    simp only [pushAll, List.foldl_cons] at *
    rw [ih (LockFreeStack.push v s)]
    simp [LockFreeStack.push]

/-- C2: With no concurrent interleaving (single-thread execution), for
every sequence of pushes followed by pops, `LockFreeStack::pop` returns
the pushed values in strict reverse-push (LIFO) order. -/
theorem stack_lifo (vs : List Int) :
    popAll (pushAll vs []) = vs.reverse := by
  rw [pushAll_eq, List.append_nil, popAll_eq]

/-! ## The stack's CAS retry loops under interference

Head-pointer values are head chains (`[]` is the `nullptr` sentinel).
The trace functions below record every CAS attempt a single `push` or
`pop` call makes against a given interference schedule, following the
source loops exactly: on CAS failure `old_head` is refreshed with the
location's current value, `push` re-links `new_node->next` to the
refreshed head before retrying, and `pop` re-checks the refreshed head
against the sentinel before attempting another CAS. -/

/-- CAS attempts made by one `LockFreeStack::push(v)` call whose initial
head observation is `old`, against interference schedule `sched`. -/
def pushAttempts (v : Int) (old : List Int) :
    List (List Int × Bool) → List (Attempt (List Int))
  | [] => []
  | (c, sp) :: rest =>
    ⟨old, v :: old, c, casTry c old sp⟩ ::
      (if casTry c old sp then [] else pushAttempts v c rest)

/-- CAS attempts made by one `LockFreeStack::pop` call whose initial head
observation is `old`: no attempt at all is made while the observed head
is the empty sentinel. -/
def popAttempts (old : List Int) :
    List (List Int × Bool) → List (Attempt (List Int))
  | [] => []
  | (c, sp) :: rest =>
    match old with
    | [] => []
    | hd :: tl =>
      ⟨hd :: tl, tl, c, casTry c (hd :: tl) sp⟩ ::
        (if casTry c (hd :: tl) sp then [] else popAttempts c rest)

/-- C5: Calling `LockFreeStack::pop` when the head pointer is the empty
sentinel returns the "empty" result (`false`) immediately — performing
zero CAS attempts whatever the interference — as a normal no-value
outcome rather than an error, leaving the stack state (and the caller's
out-parameter) unchanged. -/
theorem pop_empty (v0 : Int) (sched : List (List Int × Bool)) :
    LockFreeStack.pop [] v0 = (false, [], v0) ∧ popAttempts [] sched = [] := by
  constructor
  · rfl
  · cases sched with
    | nil => rfl
    | cons p rest => cases p; rfl

/-- C10: When `LockFreeStack::pop` returns `false` (empty stack) the
caller's out-parameter `value` is left completely unchanged; the
out-parameter is written only on a successful pop, in which case it
holds the payload of the removed head node. -/
theorem pop_out_param (v0 : Int) :
    LockFreeStack.pop [] v0 = (false, [], v0) ∧
      ∀ hd tl, LockFreeStack.pop (hd :: tl) v0 = (true, tl, hd) := by
  exact ⟨rfl, fun hd tl => rfl⟩

/-! ## Atomic counter (src/02_atomic.cpp)

`counter.fetch_add(1, relaxed)` is a single atomic instruction: each
call adds exactly 1 to the shared counter and cannot fail.  A concurrent
run of N threads each doing M increments linearizes to a schedule: a
list of thread ids, one entry per executed `fetch_add`, in which each
thread id below N occurs exactly M times. -/

/-- Effect of one `counter.fetch_add(1, std::memory_order_relaxed)` on
the shared counter. -/
def fetchAdd1 (c : Int) : Int := c + 1

/-- Run a linearized schedule of `fetch_add` events (one per list entry;
the thread id does not influence the effect). -/
def runCounter (sched : List Nat) (c : Int) : Int :=
  sched.foldl (fun v _ => fetchAdd1 v) c

/-- A schedule of N threads each performing M increments: a list of
thread ids in which every entry is a valid thread id and every thread id
occurs exactly M times. -/
def isSchedule (N M : Nat) (s : List Nat) : Prop :=
  (∀ t ∈ s, t < N) ∧ (∀ t, t < N → s.count t = M)

instance (N M : Nat) (s : List Nat) : Decidable (isSchedule N M s) := by
  unfold isSchedule; infer_instance

theorem runCounter_eq (s : List Nat) (c : Int) :
    runCounter s c = c + s.length := by
  induction s generalizing c with
  | nil => simp [runCounter]
  | cons t rest ih =>
    simp only [runCounter, List.foldl_cons] at *
    rw [ih]
    simp [fetchAdd1]
    ring

theorem schedule_length (N M : Nat) (s : List Nat) (h : isSchedule N M s) :
    s.length = N * M := by
  obtain ⟨h1, h2⟩ := h
  have hsub : (s : Multiset Nat).toFinset ⊆ Finset.range N := by
    intro a ha
    simp only [List.toFinset_coe, List.mem_toFinset] at ha
    exact Finset.mem_range.mpr (h1 a ha)
  have hcount : ∀ a : Nat, Multiset.count a (s : Multiset Nat) = s.count a := by
    intro a
    simp [Multiset.coe_count]
  have hcard : (∑ a ∈ (s : Multiset Nat).toFinset, s.count a) = s.length := by
    calc (∑ a ∈ (s : Multiset Nat).toFinset, s.count a)
        = ∑ a ∈ (s : Multiset Nat).toFinset, Multiset.count a (s : Multiset Nat) := by
          exact Finset.sum_congr rfl (fun a _ => (hcount a).symm)
      _ = Multiset.card (s : Multiset Nat) := Multiset.toFinset_sum_count_eq _
      _ = s.length := by simp
  have hext : (∑ a ∈ Finset.range N, s.count a)
      = ∑ a ∈ (s : Multiset Nat).toFinset, s.count a := by
    refine (Finset.sum_subset hsub ?_).symm
    intro x _ hx
    simp only [List.toFinset_coe, List.mem_toFinset] at hx
    exact List.count_eq_zero.mpr hx
  have hconst : (∑ a ∈ Finset.range N, s.count a) = N * M := by
    calc (∑ a ∈ Finset.range N, s.count a)
        = ∑ _a ∈ Finset.range N, M :=
          Finset.sum_congr rfl (fun t ht => h2 t (Finset.mem_range.mp ht))
      _ = N * M := by simp [Finset.sum_const, Finset.card_range, Nat.mul_comm]
  rw [← hcard, ← hext, hconst]

/-- C9: `AtomicCounter.increment()` atomically adds exactly 1 to the
counter, cannot fail, and has no observable effect beyond that side
effect; consequently, for N threads each performing M increments
starting from 0, the final counter value equals N×M for all schedules. -/
theorem counter_all_schedules (N M : Nat) (s : List Nat)
    (h : isSchedule N M s) : runCounter s 0 = ((N * M : Nat) : Int) := by
  rw [runCounter_eq, schedule_length N M s h]
  simp

/-- Witness for C9 at N = 2 threads, M = 2 increments each, with the
alternating schedule. -/
theorem counter_all_schedules_witness :
    runCounter [0, 1, 0, 1] 0 = ((2 * 2 : Nat) : Int) :=
  counter_all_schedules 2 2 [0, 1, 0, 1] (by decide)

/-! ## Bounded CAS increment (src/04_cas_bounded.cpp)

`bounded_increment` loads the counter, then loops: while the observed
value is below 100 and the CAS (observed → observed + 1) fails, the
failed CAS refreshes the observed value.  The loop exits either on a
successful CAS or on observing a value at or above 100 (an immediate
no-op). -/

/-- CAS attempts made by one `bounded_increment` call whose current
observation is `old`, against interference schedule `sched`; no attempt
is made once the observation is at or above 100. -/
def boundedAttempts (old : Int) : List (Int × Bool) → List (Attempt Int)
  | [] => []
  | (c, sp) :: rest =>
    if old < 100 then
      ⟨old, old + 1, c, casTry c old sp⟩ ::
        (if casTry c old sp then [] else boundedAttempts c rest)
    else []

/-- Linearized effect of one complete `bounded_increment` call on the
shared counter: a successful CAS fires only at an instant where the
current value v (= the observed value) is below 100 and replaces it by
v + 1; a call that observes a value at or above 100 leaves the counter
unchanged. -/
def bounded_increment (v : Int) : Int :=
  if v < 100 then v + 1 else v

theorem bounded_increment_step_le (v : Int) (h : v ≤ 100) :
    bounded_increment v ≤ 100 := by
  unfold bounded_increment
  split
  · omega
  · exact h

theorem bounded_increment_iterate_le (n : Nat) (v : Int) (h : v ≤ 100) :
    bounded_increment^[n] v ≤ 100 := by
  induction n generalizing v with
  | zero => exact h
  | succ n ih =>
    rw [Function.iterate_succ_apply]
    exact ih _ (bounded_increment_step_le v h)

/-- C3: For the bounded CAS increment with ceiling C = 100: starting
from any counter value at most C, after any number of
`bounded_increment` calls the counter value never exceeds C, and every
call made while the observed value is already at or above C is an
immediate no-op — the state is unchanged and not a single CAS is
attempted — rather than an error. -/
theorem bounded_increment_ceiling (v : Int) (h : v ≤ 100) :
    (∀ n : Nat, bounded_increment^[n] v ≤ 100) ∧
      (∀ w : Int, 100 ≤ w →
        bounded_increment w = w ∧ ∀ sched, boundedAttempts w sched = []) := by
  constructor
  · intro n
    exact bounded_increment_iterate_le n v h
  · intro w hw
    constructor
    · unfold bounded_increment
      split
      · omega
      · rfl
    · intro sched
      cases sched with
      | nil => rfl
      | cons p rest =>
        obtain ⟨c, sp⟩ := p
        simp only [boundedAttempts]
        rw [if_neg (by omega)]

/-- Witness for C3 at the starting value 99 (below the ceiling). -/
theorem bounded_increment_ceiling_witness :
    (∀ n : Nat, bounded_increment^[n] (99 : Int) ≤ 100) ∧
      (∀ w : Int, 100 ≤ w →
        bounded_increment w = w ∧ ∀ sched, boundedAttempts w sched = []) :=
  bounded_increment_ceiling 99 (by decide)

/-! ## Lock-free increment (src/05_lockfree_increment.cpp)

`lock_free_increment` loads the counter and retries CAS
(observed → observed + 1) until it succeeds; each failed CAS refreshes
the observed value. -/

/-- CAS attempts made by one `lock_free_increment` call whose current
observation is `old`, against interference schedule `sched`. -/
def lockFreeIncAttempts (old : Int) : List (Int × Bool) → List (Attempt Int)
  | [] => []
  | (c, sp) :: rest =>
    ⟨old, old + 1, c, casTry c old sp⟩ ::
      (if casTry c old sp then [] else lockFreeIncAttempts c rest)

/-! ## Freshness of retries (all four CAS loops)

The relations below say, of two consecutive CAS attempts, that after a
failure the next attempt's expected value is exactly the value the
location held at the failed attempt (the value `compare_exchange_weak`
wrote back), and that the next proposal is recomputed from that fresh
value — for `push`, that `new_node->next` is re-linked to it. -/

/-- Consecutive-attempt freshness for the two increment loops. -/
def incStep (a b : Attempt Int) : Prop :=
  a.success = false → b.expected = a.current ∧ b.proposed = a.current + 1

/-- Consecutive-attempt freshness for `LockFreeStack::push v`. -/
def pushStep (v : Int) (a b : Attempt (List Int)) : Prop :=
  a.success = false → b.expected = a.current ∧ b.proposed = v :: a.current

/-- Consecutive-attempt freshness for `LockFreeStack::pop`. -/
def popStep (a b : Attempt (List Int)) : Prop :=
  a.success = false → b.expected = a.current ∧ b.proposed = a.current.tail

theorem boundedAttempts_head (old : Int) (sched : List (Int × Bool)) :
    ∀ a ∈ (boundedAttempts old sched).head?,
      a.expected = old ∧ a.proposed = old + 1 := by
  cases sched with
  | nil => simp [boundedAttempts]
  | cons p rest =>
    obtain ⟨c, sp⟩ := p
    by_cases h : old < 100
    · simp [boundedAttempts, h]
    · simp [boundedAttempts, h]

theorem lockFreeIncAttempts_head (old : Int) (sched : List (Int × Bool)) :
    ∀ a ∈ (lockFreeIncAttempts old sched).head?,
      a.expected = old ∧ a.proposed = old + 1 := by
  cases sched with
  | nil => simp [lockFreeIncAttempts]
  | cons p rest =>
    obtain ⟨c, sp⟩ := p
    simp [lockFreeIncAttempts]

theorem pushAttempts_head (v : Int) (old : List Int)
    (sched : List (List Int × Bool)) :
    ∀ a ∈ (pushAttempts v old sched).head?,
      a.expected = old ∧ a.proposed = v :: old := by
  cases sched with
  | nil => simp [pushAttempts]
  | cons p rest =>
    obtain ⟨c, sp⟩ := p
    simp [pushAttempts]

theorem popAttempts_head (old : List Int) (sched : List (List Int × Bool)) :
    ∀ a ∈ (popAttempts old sched).head?,
      a.expected = old ∧ a.proposed = old.tail := by
  cases sched with
  | nil => simp [popAttempts]
  | cons p rest =>
    obtain ⟨c, sp⟩ := p
    cases old with
    | nil => simp [popAttempts]
    | cons hd tl => simp [popAttempts]

theorem boundedAttempts_chain (old : Int) (sched : List (Int × Bool)) :
    List.Chain' incStep (boundedAttempts old sched) := by
  induction sched generalizing old with
  | nil => simp [boundedAttempts]
  | cons p rest ih =>
    obtain ⟨c, sp⟩ := p
    by_cases h : old < 100
    · simp only [boundedAttempts, if_pos h]
      rw [List.chain'_cons']
      refine ⟨?_, ?_⟩
      · intro b hb hfail
        have hf : casTry c old sp = false := hfail
        rw [hf] at hb
        simp only [Bool.false_eq_true, if_false] at hb
        exact boundedAttempts_head c rest b hb
      · by_cases hok : casTry c old sp = true
        · simp [hok]
        · simp only [Bool.not_eq_true] at hok
          rw [hok]
          simp only [Bool.false_eq_true, if_false]
          exact ih c
    · simp [boundedAttempts, h]

theorem lockFreeIncAttempts_chain (old : Int) (sched : List (Int × Bool)) :
    List.Chain' incStep (lockFreeIncAttempts old sched) := by
  induction sched generalizing old with
  | nil => simp [lockFreeIncAttempts]
  | cons p rest ih =>
    obtain ⟨c, sp⟩ := p
    simp only [lockFreeIncAttempts]
    rw [List.chain'_cons']
    refine ⟨?_, ?_⟩
    · intro b hb hfail
      have hf : casTry c old sp = false := hfail
      rw [hf] at hb
      simp only [Bool.false_eq_true, if_false] at hb
      exact lockFreeIncAttempts_head c rest b hb
    · by_cases hok : casTry c old sp = true
      · simp [hok]
      · simp only [Bool.not_eq_true] at hok
        rw [hok]
        simp only [Bool.false_eq_true, if_false]
        exact ih c

theorem pushAttempts_chain (v : Int) (old : List Int)
    (sched : List (List Int × Bool)) :
    List.Chain' (pushStep v) (pushAttempts v old sched) := by
  induction sched generalizing old with
  | nil => simp [pushAttempts]
  | cons p rest ih =>
    obtain ⟨c, sp⟩ := p
    simp only [pushAttempts]
    rw [List.chain'_cons']
    refine ⟨?_, ?_⟩
    · intro b hb hfail
      have hf : casTry c old sp = false := hfail
      rw [hf] at hb
      simp only [Bool.false_eq_true, if_false] at hb
      exact pushAttempts_head v c rest b hb
    · by_cases hok : casTry c old sp = true
      · simp [hok]
      · simp only [Bool.not_eq_true] at hok
        rw [hok]
        simp only [Bool.false_eq_true, if_false]
        exact ih c

theorem popAttempts_chain (old : List Int) (sched : List (List Int × Bool)) :
    List.Chain' popStep (popAttempts old sched) := by
  induction sched generalizing old with
  | nil => simp [popAttempts]
  | cons p rest ih =>
    obtain ⟨c, sp⟩ := p
    cases old with
    | nil => simp [popAttempts]
    | cons hd tl =>
      simp only [popAttempts]
      rw [List.chain'_cons']
      refine ⟨?_, ?_⟩
      · intro b hb hfail
        have hf : casTry c (hd :: tl) sp = false := hfail
        rw [hf] at hb
        simp only [Bool.false_eq_true, if_false] at hb
        exact popAttempts_head c rest b hb
      · by_cases hok : casTry c (hd :: tl) sp = true
        · simp [hok]
        · simp only [Bool.not_eq_true] at hok
          rw [hok]
          simp only [Bool.false_eq_true, if_false]
          exact ih c

/-- C4: In every CAS retry loop (`bounded_increment`,
`lock_free_increment`, stack push/pop), after a failed compare-and-swap
the next attempt uses the value of the shared location current at the
time of the failure, never the stale previously observed value; for
`push`, the new node's next pointer is re-linked to the re-observed head
before each retry, so the proposal is always computed from the latest
observation. -/
theorem cas_retry_uses_latest :
    (∀ (old : Int) (sched : List (Int × Bool)),
        List.Chain' incStep (boundedAttempts old sched)) ∧
    (∀ (old : Int) (sched : List (Int × Bool)),
        List.Chain' incStep (lockFreeIncAttempts old sched)) ∧
    (∀ (v : Int) (old : List Int) (sched : List (List Int × Bool)),
        List.Chain' (pushStep v) (pushAttempts v old sched)) ∧
    (∀ (old : List Int) (sched : List (List Int × Bool)),
        List.Chain' popStep (popAttempts old sched)) :=
  ⟨boundedAttempts_chain, lockFreeIncAttempts_chain,
    pushAttempts_chain, popAttempts_chain⟩

/-! ## CAS with and without backoff (src/09_cas_with_backoff.cpp)

`worker_no_backoff` runs ITERATIONS lock-free increments, retrying each
CAS immediately.  `worker_with_backoff` runs the same loop but sets
`backoff = 1` at the start of each iteration and, on each CAS failure,
pauses `backoff` units and then sets `backoff = min(backoff * 2, 64)`.
Each inner loop is modelled against an interference schedule; the model
returns the value written by the successful CAS (`none` if the schedule
ends first) and, for the backoff variant, the list of pause durations
used. -/

/-- One `worker_no_backoff` inner CAS loop: the value its successful CAS
writes to the shared counter, given initial observation `old` and
interference schedule `sched`. -/
def incWrites (old : Int) : List (Int × Bool) → Option Int
  | [] => none
  | (c, sp) :: rest =>
    if casTry c old sp then some (old + 1) else incWrites c rest

/-- One `worker_with_backoff` inner CAS loop with current backoff state
`b`: the value its successful CAS writes, paired with the list of pause
durations (in pause-loop units) used before each retry. -/
def incWritesBackoff (old : Int) (b : Nat) :
    List (Int × Bool) → Option Int × List Nat
  | [] => (none, [])
  | (c, sp) :: rest =>
    if casTry c old sp then (some (old + 1), [])
    else ((incWritesBackoff c (min (b * 2) 64) rest).1,
          b :: (incWritesBackoff c (min (b * 2) 64) rest).2)

/-- The delays of one retry sequence, starting from backoff state `b`. -/
def backoffDelays (old : Int) (b : Nat) (sched : List (Int × Bool)) : List Nat :=
  (incWritesBackoff old b sched).2

/-- Per-iteration delay lists of a whole `worker_with_backoff` run: each
outer iteration is given by its initial observation and its interference
schedule, and starts a fresh retry sequence with `backoff = 1`. -/
def worker_with_backoff_delays : List (Int × List (Int × Bool)) → List (List Nat)
  | [] => []
  | (o, s) :: rest => backoffDelays o 1 s :: worker_with_backoff_delays rest

/-- Successful-CAS writes of a whole `worker_no_backoff` run. -/
def worker_no_backoff_writes : List (Int × List (Int × Bool)) → List (Option Int)
  | [] => []
  | (o, s) :: rest => incWrites o s :: worker_no_backoff_writes rest

/-- Successful-CAS writes of a whole `worker_with_backoff` run. -/
def worker_with_backoff_writes : List (Int × List (Int × Bool)) → List (Option Int)
  | [] => []
  | (o, s) :: rest => (incWritesBackoff o 1 s).1 :: worker_with_backoff_writes rest

/-- Counter value after `n` iterations of `worker_no_backoff` with no
interference (each CAS observes the true current value and succeeds). -/
def seqRun_no_backoff : Nat → Int → Int
  | 0, c => c
  | n + 1, c => seqRun_no_backoff n ((incWrites c [(c, false)]).getD c)

/-- Counter value after `n` iterations of `worker_with_backoff` with no
interference. -/
def seqRun_with_backoff : Nat → Int → Int
  | 0, c => c
  | n + 1, c => seqRun_with_backoff n ((incWritesBackoff c 1 [(c, false)]).1.getD c)

theorem backoffDelays_head (old : Int) (b : Nat) (sched : List (Int × Bool))
    (h : backoffDelays old b sched ≠ []) :
    (backoffDelays old b sched).head? = some b := by
  cases sched with
  | nil => exact absurd rfl h
  | cons p rest =>
    obtain ⟨c, sp⟩ := p
    by_cases hok : casTry c old sp = true
    · exact absurd (by simp [backoffDelays, incWritesBackoff, hok]) h
    · simp only [Bool.not_eq_true] at hok
      simp [backoffDelays, incWritesBackoff, hok]

theorem backoffDelays_chain (old : Int) (b : Nat) (sched : List (Int × Bool)) :
    List.Chain' (fun x y => y = min (x * 2) 64) (backoffDelays old b sched) := by
  induction sched generalizing old b with
  | nil => simp [backoffDelays, incWritesBackoff]
  | cons p rest ih =>
    obtain ⟨c, sp⟩ := p
    by_cases hok : casTry c old sp = true
    · simp [backoffDelays, incWritesBackoff, hok]
    · simp only [Bool.not_eq_true] at hok
      simp only [backoffDelays, incWritesBackoff, hok, Bool.false_eq_true,
        if_false]
      rw [List.chain'_cons']
      refine ⟨?_, ih c (min (b * 2) 64)⟩
      intro y hy
      change y ∈ (backoffDelays c (min (b * 2) 64) rest).head? at hy
      have := backoffDelays_head c (min (b * 2) 64) rest
      by_cases hne : backoffDelays c (min (b * 2) 64) rest = []
      · rw [hne] at hy
        simp at hy
      · rw [this hne] at hy
        simp only [Option.mem_some_iff] at hy
        omega

theorem backoffDelays_le (old : Int) (b : Nat) (sched : List (Int × Bool))
    (hb : b ≤ 64) : ∀ d ∈ backoffDelays old b sched, d ≤ 64 := by
  induction sched generalizing old b with
  | nil => simp [backoffDelays, incWritesBackoff]
  | cons p rest ih =>
    obtain ⟨c, sp⟩ := p
    by_cases hok : casTry c old sp = true
    · simp [backoffDelays, incWritesBackoff, hok]
    · simp only [Bool.not_eq_true] at hok
      simp only [backoffDelays, incWritesBackoff, hok, Bool.false_eq_true,
        if_false]
      intro d hd
      rcases List.mem_cons.mp hd with h | h
      · omega
      · exact ih c (min (b * 2) 64) (by omega) d h

/-- C7: Within one retry sequence of the backoff CAS worker, the delay
starts at the minimum unit (1), exactly doubles on each consecutive CAS
failure, and saturates at a fixed maximum of 64 units (never exceeding
it); at the start of each new independent retry sequence (each outer
increment of `worker_with_backoff`) the delay state is reset to the
initial unit. -/
theorem backoff_delay_contract (iters : List (Int × List (Int × Bool)))
    (dl : List Nat) (hdl : dl ∈ worker_with_backoff_delays iters) :
    (dl ≠ [] → dl.head? = some 1) ∧
      List.Chain' (fun x y => y = min (x * 2) 64) dl ∧
      ∀ d ∈ dl, d ≤ 64 := by
  induction iters with
  | nil => simp [worker_with_backoff_delays] at hdl
  | cons p rest ih =>
    obtain ⟨o, s⟩ := p
    simp only [worker_with_backoff_delays, List.mem_cons] at hdl
    rcases hdl with h | h
    · subst h
      exact ⟨backoffDelays_head o 1 s, backoffDelays_chain o 1 s,
        backoffDelays_le o 1 s (by omega)⟩
    · exact ih h

/-- Witness for C7: a worker run whose single iteration fails its CAS
twice (against interference 5 then 3) and succeeds on the third attempt,
producing the delay list [1, 2]. -/
theorem backoff_delay_contract_witness :
    (([1, 2] : List Nat) ≠ [] → ([1, 2] : List Nat).head? = some 1) ∧
      List.Chain' (fun x y => y = min (x * 2) 64) ([1, 2] : List Nat) ∧
      ∀ d ∈ ([1, 2] : List Nat), d ≤ 64 :=
  backoff_delay_contract [(0, [(5, false), (3, false), (3, false)])] [1, 2]
    (by decide)

theorem incWritesBackoff_fst (old : Int) (b : Nat) (sched : List (Int × Bool)) :
    (incWritesBackoff old b sched).1 = incWrites old sched := by
  induction sched generalizing old b with
  | nil => rfl
  | cons p rest ih =>
    obtain ⟨c, sp⟩ := p
    by_cases hok : casTry c old sp = true
    · simp [incWritesBackoff, incWrites, hok]
    · simp only [Bool.not_eq_true] at hok
      simp [incWritesBackoff, incWrites, hok, ih]

theorem worker_writes_eq (iters : List (Int × List (Int × Bool))) :
    worker_with_backoff_writes iters = worker_no_backoff_writes iters := by
  induction iters with
  | nil => rfl
  | cons p rest ih =>
    obtain ⟨o, s⟩ := p
    simp [worker_with_backoff_writes, worker_no_backoff_writes,
      incWritesBackoff_fst, ih]

theorem seqRun_no_backoff_eq (n : Nat) (c : Int) :
    seqRun_no_backoff n c = c + n := by
  induction n generalizing c with
  | zero => simp [seqRun_no_backoff]
  | succ n ih =>
    have hcas : casTry c c false = true := by simp [casTry]
    simp only [seqRun_no_backoff, incWrites, hcas, if_true, Option.getD_some]
    rw [ih]
    push_cast
    ring

/-- C8: The CAS increment loop with backoff and the CAS increment loop
without backoff compute the same result: under every interference
schedule they perform exactly the same successful-CAS writes (so every
correctness property of the run is unchanged), and in a sequential run
of `n` iterations both leave the counter at start + n; enabling or
omitting backoff changes only latency/CPU usage, never the values. -/
theorem backoff_non_interference :
    (∀ (old : Int) (b : Nat) (sched : List (Int × Bool)),
        (incWritesBackoff old b sched).1 = incWrites old sched) ∧
    (∀ iters : List (Int × List (Int × Bool)),
        worker_with_backoff_writes iters = worker_no_backoff_writes iters) ∧
    (∀ (n : Nat) (c : Int),
        seqRun_with_backoff n c = seqRun_no_backoff n c ∧
          seqRun_no_backoff n c = c + n) := by
  refine ⟨incWritesBackoff_fst, worker_writes_eq, ?_⟩
  intro n c
  constructor
  · induction n generalizing c with
    | zero => rfl
    | succ n ih =>
      simp only [seqRun_with_backoff, seqRun_no_backoff, incWritesBackoff_fst]
      exact ih _
  · exact seqRun_no_backoff_eq n c
